import Mathlib

/-!
# A shallow embedding of the `libdtree` decision-tree classifier

This file models the ID3-style decision-tree trainer and predictor of
`libdtree.h` (single-header C library).  C `float` values are modelled as
exact rationals `ℚ`; the entropy / information-gain computations, which in C
use `log2f`, are modelled over the reals with `Real.logb 2`.  C `int`
quantities that the algorithm keeps non-negative are modelled as `ℕ`; the
user-facing parameters `maxdepth` and `min_sample_split` (C `int`) are
modelled as `ℤ`.  A flattened row-major feature matrix is a `List ℚ`
together with an explicit column count `ncol`; the label vector is a
`List ℚ` whose length plays the role of the C parameter `nrow` (every call
site of the C library passes exactly that length).  Out-of-range array reads
(undefined behaviour in C) are modelled by `List.getD _ _ 0`.
-/

namespace Libdtree

/-- Models the C cast `(int)x` (truncation toward zero) on a rational. -/
def cint (x : ℚ) : ℤ := if 0 ≤ x then ⌊x⌋ else ⌈x⌉

/-- Models `ldt_listcontains`: linear membership scan. -/
def ldt_listcontains (l : List ℚ) (x : ℚ) : Bool := l.any (fun y => y == x)

/-- Models `ldt_listunique`: the distinct values of `arr` in first-occurrence order
(each element is appended to the accumulator unless already present). -/
def ldt_listunique (l : List ℚ) : List ℚ :=
  l.foldl (fun acc x => if ldt_listcontains acc x then acc else acc ++ [x]) []

/-- Models `ispure`: the label list holds exactly one distinct value. -/
def ispure (l : List ℚ) : Bool := (ldt_listunique l).length == 1

/-- Models `ldt_arrmax`: running maximum kept in a C `int` initialised to `0`; each
element strictly above the current maximum is truncated into it. -/
def ldt_arrmax (l : List ℚ) : ℕ :=
  l.foldl (fun c x => if (c : ℚ) < x then (cint x).toNat else c) 0

/-- The occurrence count used by `ldt_bincount` / `classify_asleaf`: how many
elements of `x` the C code files into bin `k` (indexing by `(int)` cast). -/
def binCnt (x : List ℚ) (k : ℤ) : ℕ := x.countP (fun e => cint e == k)

/-- The trained tree.  A C `Tree` node with `isleaf = 1` reads only `value`
(its `featidx`, `thresh`, `gain` stay uninitialised and unread);
an internal node reads `featidx`, `thresh`, `gain` and its two children. -/
inductive Tree where
  | leaf (value : ℚ)
  | node (featidx : ℕ) (thresh : ℚ) (gain : ℝ) (lnode rnode : Tree)

/-- The `isleaf` flag of a node. -/
def Tree.isLeaf : Tree → Bool
  | Tree.leaf _ => true
  | Tree.node _ _ _ _ _ => false

/-- Height of the tree counted in internal nodes along a longest path. -/
def Tree.depth : Tree → ℕ
  | Tree.leaf _ => 0
  | Tree.node _ _ _ l r => max l.depth r.depth + 1

/-- Models `TreeParam`: stopping parameters of the induction. -/
structure TreeParam where
  maxdepth : ℤ
  min_sample_split : ℤ
deriving DecidableEq

/-- The majority vote of `classify_asleaf`: scan bins `0 … ldt_arrmax target`,
keeping the current best index only on a strictly larger count, starting
from index `0` with its own count. -/
def classify_value (target : List ℚ) : ℕ :=
  let m := ldt_arrmax target
  (((List.range (m + 1)).foldl
      (fun (acc : ℕ × ℕ) (i : ℕ) =>
        if acc.2 < binCnt target (i : ℤ) then (i, binCnt target (i : ℤ)) else acc)
      (0, binCnt target (0 : ℤ)))).1

/-- Models `classify_asleaf`: a leaf holding the majority class as a float. -/
def classify_asleaf (target : List ℚ) : Tree :=
  Tree.leaf ((classify_value target : ℕ) : ℚ)

/-- Models `entropy`: bin-count the list, divide by its length, and sum
`p * log2 p` over the distinct values (first-occurrence order), indexing the
probability by the truncated value; the negated sum is returned. -/
noncomputable def entropy (x : List ℚ) : ℝ :=
  -((ldt_listunique x).foldl
      (fun acc v =>
        let p : ℚ := (binCnt x (cint v) : ℚ) / (x.length : ℚ)
        if 0 < p then acc + (p : ℝ) * Real.logb 2 (p : ℝ) else acc)
      0)

/-- Models `gain`: information gain of a parent label list against the two label
lists of a candidate partition (the C arguments `nparent`, `nleft`,
`nright` are the respective list lengths at every call site). -/
noncomputable def gain (parent left right : List ℚ) : ℝ :=
  entropy parent -
    (((left.length : ℝ) / (parent.length : ℝ)) * entropy left +
      ((right.length : ℝ) / (parent.length : ℝ)) * entropy right)

/-- The matrix entry `data[f + ncol * r]` (row-major flat storage). -/
def colVal (data : List ℚ) (ncol f r : ℕ) : ℚ := data.getD (f + ncol * r) 0

/-- Models `ldt_getcol`: column `f` of the matrix as a list over the `nrow` rows. -/
def ldt_getcol (data : List ℚ) (f ncol nrow : ℕ) : List ℚ :=
  (List.range nrow).map (fun r => colVal data ncol f r)

/-- Row indices sent to the left partition by candidate `(f, v)`:
those rows whose entry in column `f` is `≤ v`, in original row order. -/
def leftIdx (data : List ℚ) (ncol nrow f : ℕ) (v : ℚ) : List ℕ :=
  (List.range nrow).filter (fun r => colVal data ncol f r ≤ v)

/-- Row indices sent to the right partition (the `else` branch):
those rows whose entry in column `f` is not `≤ v`. -/
def rightIdx (data : List ℚ) (ncol nrow f : ℕ) (v : ℚ) : List ℕ :=
  (List.range nrow).filter (fun r => !(colVal data ncol f r ≤ v : Bool))

/-- The complete feature row `r`: entries `data[c + ncol * r]`, `c < ncol`. -/
def rowOf (data : List ℚ) (ncol r : ℕ) : List ℚ :=
  (List.range ncol).map (fun c => data.getD (c + ncol * r) 0)

/-- The flattened left feature partition of candidate `(f, v)`. -/
def leftData (data : List ℚ) (ncol nrow f : ℕ) (v : ℚ) : List ℚ :=
  (leftIdx data ncol nrow f v).flatMap (rowOf data ncol)

/-- The flattened right feature partition of candidate `(f, v)`. -/
def rightData (data : List ℚ) (ncol nrow f : ℕ) (v : ℚ) : List ℚ :=
  (rightIdx data ncol nrow f v).flatMap (rowOf data ncol)

/-- The left label partition of candidate `(f, v)`. -/
def leftTarget (data target : List ℚ) (ncol f : ℕ) (v : ℚ) : List ℚ :=
  (leftIdx data ncol target.length f v).map (fun r => target.getD r 0)

/-- The right label partition of candidate `(f, v)`. -/
def rightTarget (data target : List ℚ) (ncol f : ℕ) (v : ℚ) : List ℚ :=
  (rightIdx data ncol target.length f v).map (fun r => target.getD r 0)

/-- The `Split` record returned by `best_split`. -/
structure Split where
  featidx : ℕ
  thresh : ℚ
  ldata : List ℚ
  ltarget : List ℚ
  lnrow : ℕ
  rdata : List ℚ
  rtarget : List ℚ
  rnrow : ℕ
  gain : ℝ

/-- The record `currbest` as initialised at the top of `best_split`: zero feature
index and threshold, empty (`NULL`) partitions, and gain field `0`. -/
def initSplit : Split :=
  { featidx := 0, thresh := 0, ldata := [], ltarget := [], lnrow := 0,
    rdata := [], rtarget := [], rnrow := 0, gain := 0 }

/-- The `Split` recorded when candidate `(f, v)` wins: its partitions, their
row counts, and its information gain. -/
noncomputable def candSplit (data target : List ℚ) (ncol : ℕ) (c : ℕ × ℚ) : Split :=
  { featidx := c.1, thresh := c.2,
    ldata := leftData data ncol target.length c.1 c.2,
    ltarget := leftTarget data target ncol c.1 c.2,
    lnrow := (leftTarget data target ncol c.1 c.2).length,
    rdata := rightData data ncol target.length c.1 c.2,
    rtarget := rightTarget data target ncol c.1 c.2,
    rnrow := (rightTarget data target ncol c.1 c.2).length,
    gain := gain target (leftTarget data target ncol c.1 c.2)
      (rightTarget data target ncol c.1 c.2) }

/-- The gain of candidate `(f, v)` against the current labels. -/
noncomputable def candGain (data target : List ℚ) (ncol : ℕ) (c : ℕ × ℚ) : ℝ :=
  gain target (leftTarget data target ncol c.1 c.2) (rightTarget data target ncol c.1 c.2)

/-- A candidate is valid when both flattened feature partitions are
non-empty (the C test `lleftdata.len > 0 && lrightdata.len > 0`). -/
def validCand (data target : List ℚ) (ncol : ℕ) (c : ℕ × ℚ) : Bool :=
  !(leftData data ncol target.length c.1 c.2 == []) &&
    !(rightData data ncol target.length c.1 c.2 == [])

open Classical in
/-- One iteration of the candidate loops of `best_split`: skip the
candidate unless both partitions are non-empty; replace the running best
`(currbest, bestgain)` only when the candidate's gain strictly exceeds
`bestgain`. -/
noncomputable def stepSplit (data target : List ℚ) (ncol : ℕ)
    (acc : Split × ℝ) (c : ℕ × ℚ) : Split × ℝ :=
  if validCand data target ncol c then
    if candGain data target ncol c > acc.2 then
      (candSplit data target ncol c, candGain data target ncol c)
    else acc
  else acc

/-- All candidates in visit order: features ascending (outer loop), then
the distinct values of that column in first-occurrence order (inner loop). -/
def candPairs (data : List ℚ) (ncol nrow : ℕ) : List (ℕ × ℚ) :=
  (List.range ncol).flatMap
    (fun f => (ldt_listunique (ldt_getcol data f ncol nrow)).map (fun v => (f, v)))

/-- Models `best_split`: fold the candidate loops over the initial state
`(currbest, bestgain) = (initSplit, -1)` and return `currbest`. -/
noncomputable def best_split (data target : List ℚ) (ncol : ℕ) : Split :=
  ((candPairs data ncol target.length).foldl (stepSplit data target ncol)
    (initSplit, -1)).1

open Classical in
/-- Models `ldt_grow`: emit a majority leaf when the labels are pure, the row
count is below `min_sample_split`, or `depth` equals `maxdepth`; otherwise
split and recurse on the two partitions at `depth + 1`.

The inner `dite` guard makes the recursion well-founded on the label-list
length.  For a non-empty label list the guard always holds (the winning
partitions are non-empty and their lengths sum to `nrow`, and the
no-candidate partitions are empty); it can fail only for an empty label
list, where the C code recurses on empty partitions for ever (it only
returns when `min_sample_split ≥ 1`, in which case each child call
immediately emits `classify_asleaf` of the empty list — which is what the
fallback branch returns). -/
noncomputable def ldt_grow (data target : List ℚ) (ncol : ℕ) (depth : ℤ)
    (param : TreeParam) : Tree :=
  if ispure target = true ∨ (target.length : ℤ) < param.min_sample_split ∨
      depth = param.maxdepth then
    classify_asleaf target
  else
    let best := best_split data target ncol
    if h : best.ltarget.length < target.length ∧
        best.rtarget.length < target.length then
      Tree.node best.featidx best.thresh best.gain
        (ldt_grow best.ldata best.ltarget ncol (depth + 1) param)
        (ldt_grow best.rdata best.rtarget ncol (depth + 1) param)
    else
      Tree.node best.featidx best.thresh best.gain
        (classify_asleaf best.ltarget) (classify_asleaf best.rtarget)
  termination_by target.length
  decreasing_by
  · exact h.1
  · exact h.2

/-- Models `dtree_grow_with_param`: start the induction at depth `0`. -/
noncomputable def dtree_grow_with_param (data target : List ℚ) (ncol : ℕ)
    (param : TreeParam) : Tree :=
  ldt_grow data target ncol 0 param

/-- The default parameters of `dtree_grow`. -/
def defaultparam : TreeParam := { maxdepth := 5, min_sample_split := 1 }

/-- Models `dtree_grow`: train with the default parameters. -/
noncomputable def dtree_grow (data target : List ℚ) (ncol : ℕ) : Tree :=
  ldt_grow data target ncol 0 defaultparam

/-- Models `dtree_predict_single`: descend left when `row[featidx] ≤ thresh`,
right otherwise; return the value of the leaf reached. -/
def dtree_predict_single : Tree → List ℚ → ℚ
  | Tree.leaf v, _ => v
  | Tree.node f th _ l r, row =>
    if row.getD f 0 ≤ th then dtree_predict_single l row
    else dtree_predict_single r row

/-- Models `dtree_predict`: predict each row of the row-major matrix in row order.
The C loop steps `i` by `ncol` while `i < nrow * ncol`, copying the slice
`data[i … i + ncol)` into a fresh row buffer; with `ncol = 0` the loop body
never runs and no prediction is produced. -/
def dtree_predict (tree : Tree) (data : List ℚ) (ncol nrow : ℕ) : List ℚ :=
  if ncol = 0 then []
  else (List.range nrow).map
    (fun i => dtree_predict_single tree
      ((List.range ncol).map (fun j => data.getD (ncol * i + j) 0)))

/-- The candidates that pass the non-empty-partition test, in visit order. -/
def validCands (data target : List ℚ) (ncol : ℕ) : List (ℕ × ℚ) :=
  (candPairs data ncol target.length).filter (validCand data target ncol)

/-- The label contract of the library: every label is an integral value. -/
def IntLabels (l : List ℚ) : Prop := ∀ x ∈ l, ∃ k : ℤ, x = (k : ℚ)

/-- The set of classes (truncated label values) occurring in a list. -/
def classSet (x : List ℚ) : Finset ℤ := (x.map cint).toFinset

/-- The entropy numerator: the Shannon entropy of the class distribution in
natural-log units, as a sum over the class set. -/
noncomputable def entS (x : List ℚ) : ℝ :=
  ∑ k ∈ classSet x, Real.negMulLog ((binCnt x k : ℝ) / (x.length : ℝ))

/-- The argmax scan of `classify_asleaf` over bins `0 … m`. -/
def argmaxFold (cnt : ℕ → ℕ) (m : ℕ) : ℕ × ℕ :=
  (List.range (m + 1)).foldl
    (fun (acc : ℕ × ℕ) (i : ℕ) => if acc.2 < cnt i then (i, cnt i) else acc) (0, cnt 0)

/-! ## Basic properties of the list utilities -/

theorem ldt_listcontains_iff (l : List ℚ) (x : ℚ) :
    ldt_listcontains l x = true ↔ x ∈ l := by
  rw [ldt_listcontains, List.any_eq_true]
  constructor
  · rintro ⟨y, hy, he⟩
    rw [beq_iff_eq] at he
    rwa [he] at hy
  · intro h
    exact ⟨x, h, beq_self_eq_true x⟩

theorem mem_ldt_listunique_core (l : List ℚ) : ∀ (acc : List ℚ) (v : ℚ),
    (v ∈ l.foldl (fun acc x => if ldt_listcontains acc x then acc else acc ++ [x]) acc ↔
      v ∈ acc ∨ v ∈ l) := by
  induction l with
  | nil => simp
  | cons a l ih =>
    intro acc v
    rw [List.foldl_cons]
    by_cases h : ldt_listcontains acc a = true
    · rw [if_pos h, ih]
      have ha := (ldt_listcontains_iff acc a).1 h
      constructor
      · rintro (hv | hv)
        · exact Or.inl hv
        · exact Or.inr (List.mem_cons_of_mem _ hv)
      · rintro (hv | hv)
        · exact Or.inl hv
        · rcases List.mem_cons.1 hv with rfl | hv
          · exact Or.inl ha
          · exact Or.inr hv
    · rw [if_neg h, ih]
      simp only [List.mem_append, List.mem_singleton, List.mem_cons]
      tauto

theorem nodup_ldt_listunique_core (l : List ℚ) : ∀ (acc : List ℚ), acc.Nodup →
    (l.foldl (fun acc x => if ldt_listcontains acc x then acc else acc ++ [x]) acc).Nodup := by
  induction l with
  | nil => exact fun _ h => h
  | cons a l ih =>
    intro acc h
    rw [List.foldl_cons]
    by_cases hc : ldt_listcontains acc a = true
    · rw [if_pos hc]
      exact ih acc h
    · rw [if_neg hc]
      refine ih _ ?_
      have ha : a ∉ acc := fun hmem => hc ((ldt_listcontains_iff acc a).2 hmem)
      simp [List.nodup_append, h, ha]

theorem mem_ldt_listunique {l : List ℚ} {v : ℚ} : v ∈ ldt_listunique l ↔ v ∈ l := by
  rw [ldt_listunique, mem_ldt_listunique_core]
  simp

theorem nodup_ldt_listunique (l : List ℚ) : (ldt_listunique l).Nodup :=
  nodup_ldt_listunique_core l [] List.nodup_nil

/-! ## Partition structure of a candidate split -/

theorem leftIdx_append_rightIdx_perm (d : List ℚ) (n nr f : ℕ) (v : ℚ) :
    (leftIdx d n nr f v ++ rightIdx d n nr f v).Perm (List.range nr) :=
  List.filter_append_perm _ (List.range nr)

theorem getD_range_map (l : List ℚ) :
    (List.range l.length).map (fun r => l.getD r 0) = l := by
  apply List.ext_getElem
  · simp
  · intro i h1 h2
    simp [List.getD_eq_getElem?_getD, List.getElem?_eq_getElem h2]

theorem leftTarget_append_rightTarget_perm (d t : List ℚ) (n f : ℕ) (v : ℚ) :
    (leftTarget d t n f v ++ rightTarget d t n f v).Perm t := by
  rw [leftTarget, rightTarget, ← List.map_append]
  have h := (leftIdx_append_rightIdx_perm d n t.length f v).map (fun r => t.getD r 0)
  rwa [getD_range_map] at h

theorem leftTarget_length_add (d t : List ℚ) (n f : ℕ) (v : ℚ) :
    (leftTarget d t n f v).length + (rightTarget d t n f v).length = t.length := by
  have h := (leftTarget_append_rightTarget_perm d t n f v).length_eq
  simpa using h

theorem validCand_target_ne {d t : List ℚ} {n : ℕ} {c : ℕ × ℚ}
    (h : validCand d t n c = true) :
    leftTarget d t n c.1 c.2 ≠ [] ∧ rightTarget d t n c.1 c.2 ≠ [] := by
  rw [validCand, Bool.and_eq_true] at h
  obtain ⟨h1, h2⟩ := h
  constructor
  · intro he
    rw [leftTarget, List.map_eq_nil_iff] at he
    rw [leftData, he] at h1
    simp at h1
  · intro he
    rw [rightTarget, List.map_eq_nil_iff] at he
    rw [rightData, he] at h2
    simp at h2

theorem validCand_lengths {d t : List ℚ} {n : ℕ} {c : ℕ × ℚ}
    (h : validCand d t n c = true) :
    (leftTarget d t n c.1 c.2).length < t.length ∧
      (rightTarget d t n c.1 c.2).length < t.length := by
  obtain ⟨h1, h2⟩ := validCand_target_ne h
  have hadd := leftTarget_length_add d t n c.1 c.2
  have hl := List.length_pos.2 h1
  have hr := List.length_pos.2 h2
  omega

/-! ## Evaluation lemmas on the XOR dataset and `best_split` step lemmas -/

theorem logb_two_half : Real.logb 2 ((1:ℝ)/2) = -1 := by
  rw [one_div, Real.logb_inv, Real.logb_self_eq_one]
  norm_num

theorem entropy_0110 : entropy [0,1,1,0] = 1 := by
  have hu : ldt_listunique [0,1,1,0] = [0,1] := by decide
  have h0 : binCnt [0,1,1,0] (cint 0) = 2 := by decide
  have h1 : binCnt [0,1,1,0] (cint 1) = 2 := by decide
  simp only [entropy, hu, List.foldl, h0, h1]
  norm_num [logb_two_half]

theorem entropy_10 : entropy [1,0] = 1 := by
  have hu : ldt_listunique [1,0] = [1,0] := by decide
  have h0 : binCnt [1,0] (cint 0) = 1 := by decide
  have h1 : binCnt [1,0] (cint 1) = 1 := by decide
  simp only [entropy, hu, List.foldl, h0, h1]
  norm_num [logb_two_half]

theorem entropy_01 : entropy [0,1] = 1 := by
  have hu : ldt_listunique [0,1] = [0,1] := by decide
  have h0 : binCnt [0,1] (cint 0) = 1 := by decide
  have h1 : binCnt [0,1] (cint 1) = 1 := by decide
  simp only [entropy, hu, List.foldl, h0, h1]
  norm_num [logb_two_half]

theorem entropy_single (v : ℚ) : entropy [v] = 0 := by
  have hu : ldt_listunique [v] = [v] := by
    simp [ldt_listunique, ldt_listcontains]
  have h0 : binCnt [v] (cint v) = 1 := by
    simp [binCnt, List.countP, List.countP.go]
  simp only [entropy, hu, List.foldl, h0]
  norm_num

theorem gain_top : gain [0,1,1,0] [1,0] [0,1] = 0 := by
  simp [gain, entropy_0110, entropy_10, entropy_01]
  norm_num

theorem gain_sub1 : gain [1,0] [0] [1] = 1 := by
  simp [gain, entropy_10, entropy_single]

theorem gain_sub2 : gain [0,1] [1] [0] = 1 := by
  simp [gain, entropy_01, entropy_single]

theorem stepSplit_invalid {d t : List ℚ} {n : ℕ} {a : Split × ℝ} {c : ℕ × ℚ}
    (h : validCand d t n c = false) :
    stepSplit d t n a c = a := by
  simp [stepSplit, h]

theorem stepSplit_improve {d t : List ℚ} {n : ℕ} {a : Split × ℝ} {c : ℕ × ℚ}
    (h : validCand d t n c = true) (hg : candGain d t n c > a.2) :
    stepSplit d t n a c = (candSplit d t n c, candGain d t n c) := by
  simp [stepSplit, h, hg]

theorem stepSplit_keep {d t : List ℚ} {n : ℕ} {a : Split × ℝ} {c : ℕ × ℚ}
    (hg : ¬ candGain d t n c > a.2) :
    stepSplit d t n a c = a := by
  unfold stepSplit
  rw [if_neg hg, ite_self]

theorem xor_candGain00 : candGain [1,1,0,1,1,0,0,0] [0,1,1,0] 2 (0,0) = 0 := by
  have hl : leftTarget [1,1,0,1,1,0,0,0] [0,1,1,0] 2 0 0 = [1,0] := by decide
  have hr : rightTarget [1,1,0,1,1,0,0,0] [0,1,1,0] 2 0 0 = [0,1] := by decide
  rw [candGain, hl, hr, gain_top]

theorem xor_candGain10 : candGain [1,1,0,1,1,0,0,0] [0,1,1,0] 2 (1,0) = 0 := by
  have hl : leftTarget [1,1,0,1,1,0,0,0] [0,1,1,0] 2 1 0 = [1,0] := by decide
  have hr : rightTarget [1,1,0,1,1,0,0,0] [0,1,1,0] 2 1 0 = [0,1] := by decide
  rw [candGain, hl, hr, gain_top]

theorem xor_best_split :
    best_split [1,1,0,1,1,0,0,0] [0,1,1,0] 2 =
      { featidx := 0, thresh := 0, ldata := [0,1,0,0], ltarget := [1,0], lnrow := 2,
        rdata := [1,1,1,0], rtarget := [0,1], rnrow := 2, gain := 0 } := by
  have hc : candPairs [1,1,0,1,1,0,0,0] 2 (List.length ([0,1,1,0] : List ℚ)) =
      [(0,1),(0,0),(1,1),(1,0)] := by decide
  have s1 : stepSplit [1,1,0,1,1,0,0,0] [0,1,1,0] 2 (initSplit, -1) (0,1) =
      (initSplit, -1) := stepSplit_invalid (by decide)
  have s2 : stepSplit [1,1,0,1,1,0,0,0] [0,1,1,0] 2 (initSplit, -1) (0,0) =
      (candSplit [1,1,0,1,1,0,0,0] [0,1,1,0] 2 (0,0),
        candGain [1,1,0,1,1,0,0,0] [0,1,1,0] 2 (0,0)) := by
    refine stepSplit_improve (by decide) ?_
    rw [xor_candGain00]
    norm_num
  have s3 : stepSplit [1,1,0,1,1,0,0,0] [0,1,1,0] 2
      (candSplit [1,1,0,1,1,0,0,0] [0,1,1,0] 2 (0,0),
        candGain [1,1,0,1,1,0,0,0] [0,1,1,0] 2 (0,0)) (1,1) =
      (candSplit [1,1,0,1,1,0,0,0] [0,1,1,0] 2 (0,0),
        candGain [1,1,0,1,1,0,0,0] [0,1,1,0] 2 (0,0)) := stepSplit_invalid (by decide)
  have s4 : stepSplit [1,1,0,1,1,0,0,0] [0,1,1,0] 2
      (candSplit [1,1,0,1,1,0,0,0] [0,1,1,0] 2 (0,0),
        candGain [1,1,0,1,1,0,0,0] [0,1,1,0] 2 (0,0)) (1,0) =
      (candSplit [1,1,0,1,1,0,0,0] [0,1,1,0] 2 (0,0),
        candGain [1,1,0,1,1,0,0,0] [0,1,1,0] 2 (0,0)) := by
    refine stepSplit_keep ?_
    rw [xor_candGain10, xor_candGain00]
    norm_num
  rw [best_split, hc]
  simp only [List.foldl]
  rw [s1, s2, s3, s4]
  have h1 : leftData [1,1,0,1,1,0,0,0] 2 4 0 0 = [0,1,0,0] := by decide
  have h2 : rightData [1,1,0,1,1,0,0,0] 2 4 0 0 = [1,1,1,0] := by decide
  have h3 : leftTarget [1,1,0,1,1,0,0,0] [0,1,1,0] 2 0 0 = [1,0] := by decide
  have h4 : rightTarget [1,1,0,1,1,0,0,0] [0,1,1,0] 2 0 0 = [0,1] := by decide
  simp [candSplit, candGain, h1, h2, h3, h4, gain_top]

-- sub best_splits
theorem l_candGain : candGain [0,1,0,0] [1,0] 2 (1,0) = 1 := by
  have hl : leftTarget [0,1,0,0] [1,0] 2 1 0 = [0] := by decide
  have hr : rightTarget [0,1,0,0] [1,0] 2 1 0 = [1] := by decide
  rw [candGain, hl, hr, gain_sub1]

theorem l_best_split :
    best_split [0,1,0,0] [1,0] 2 =
      { featidx := 1, thresh := 0, ldata := [0,0], ltarget := [0], lnrow := 1,
        rdata := [0,1], rtarget := [1], rnrow := 1, gain := 1 } := by
  have hc : candPairs [0,1,0,0] 2 (List.length ([1,0] : List ℚ)) =
      [(0,0),(1,1),(1,0)] := by decide
  have s1 : stepSplit [0,1,0,0] [1,0] 2 (initSplit, -1) (0,0) =
      (initSplit, -1) := stepSplit_invalid (by decide)
  have s2 : stepSplit [0,1,0,0] [1,0] 2 (initSplit, -1) (1,1) =
      (initSplit, -1) := stepSplit_invalid (by decide)
  have s3 : stepSplit [0,1,0,0] [1,0] 2 (initSplit, -1) (1,0) =
      (candSplit [0,1,0,0] [1,0] 2 (1,0), candGain [0,1,0,0] [1,0] 2 (1,0)) := by
    refine stepSplit_improve (by decide) ?_
    rw [l_candGain]
    norm_num
  rw [best_split, hc]
  simp only [List.foldl]
  rw [s1, s2, s3]
  have h1 : leftData [0,1,0,0] 2 2 1 0 = [0,0] := by decide
  have h2 : rightData [0,1,0,0] 2 2 1 0 = [0,1] := by decide
  have h3 : leftTarget [0,1,0,0] [1,0] 2 1 0 = [0] := by decide
  have h4 : rightTarget [0,1,0,0] [1,0] 2 1 0 = [1] := by decide
  simp [candSplit, candGain, h1, h2, h3, h4, gain_sub1]

theorem r_candGain : candGain [1,1,1,0] [0,1] 2 (1,0) = 1 := by
  have hl : leftTarget [1,1,1,0] [0,1] 2 1 0 = [1] := by decide
  have hr : rightTarget [1,1,1,0] [0,1] 2 1 0 = [0] := by decide
  rw [candGain, hl, hr, gain_sub2]

theorem r_best_split :
    best_split [1,1,1,0] [0,1] 2 =
      { featidx := 1, thresh := 0, ldata := [1,0], ltarget := [1], lnrow := 1,
        rdata := [1,1], rtarget := [0], rnrow := 1, gain := 1 } := by
  have hc : candPairs [1,1,1,0] 2 (List.length ([0,1] : List ℚ)) =
      [(0,1),(1,1),(1,0)] := by decide
  have s1 : stepSplit [1,1,1,0] [0,1] 2 (initSplit, -1) (0,1) =
      (initSplit, -1) := stepSplit_invalid (by decide)
  have s2 : stepSplit [1,1,1,0] [0,1] 2 (initSplit, -1) (1,1) =
      (initSplit, -1) := stepSplit_invalid (by decide)
  have s3 : stepSplit [1,1,1,0] [0,1] 2 (initSplit, -1) (1,0) =
      (candSplit [1,1,1,0] [0,1] 2 (1,0), candGain [1,1,1,0] [0,1] 2 (1,0)) := by
    refine stepSplit_improve (by decide) ?_
    rw [r_candGain]
    norm_num
  rw [best_split, hc]
  simp only [List.foldl]
  rw [s1, s2, s3]
  have h1 : leftData [1,1,1,0] 2 2 1 0 = [1,0] := by decide
  have h2 : rightData [1,1,1,0] 2 2 1 0 = [1,1] := by decide
  have h3 : leftTarget [1,1,1,0] [0,1] 2 1 0 = [1] := by decide
  have h4 : rightTarget [1,1,1,0] [0,1] 2 1 0 = [0] := by decide
  simp [candSplit, candGain, h1, h2, h3, h4, gain_sub2]

-- leaves
theorem leaf_q (v : ℚ) (k : ℕ) (h : classify_value [v] = k) :
    classify_asleaf [v] = Tree.leaf (k : ℚ) := by
  rw [classify_asleaf, h]

theorem grow_pure_single (d : List ℚ) (n : ℕ) (dep : ℤ) (p : TreeParam) (v : ℚ) :
    ldt_grow d [v] n dep p = classify_asleaf [v] := by
  rw [ldt_grow]
  rw [if_pos]
  left
  simp [ispure, ldt_listunique, ldt_listcontains]

-- internal nodes
theorem grow_l : ldt_grow [0,1,0,0] [1,0] 2 1 defaultparam =
    Tree.node 1 0 1 (Tree.leaf 0) (Tree.leaf 1) := by
  rw [ldt_grow]
  rw [if_neg (by decide)]
  simp only [l_best_split]
  rw [dif_pos (by constructor <;> decide)]
  rw [grow_pure_single, grow_pure_single]
  rw [leaf_q 0 0 (by decide), leaf_q 1 1 (by decide)]
  norm_num

theorem grow_r : ldt_grow [1,1,1,0] [0,1] 2 1 defaultparam =
    Tree.node 1 0 1 (Tree.leaf 1) (Tree.leaf 0) := by
  rw [ldt_grow]
  rw [if_neg (by decide)]
  simp only [r_best_split]
  rw [dif_pos (by constructor <;> decide)]
  rw [grow_pure_single, grow_pure_single]
  rw [leaf_q 1 1 (by decide), leaf_q 0 0 (by decide)]
  norm_num

theorem grow_top : dtree_grow [1,1,0,1,1,0,0,0] [0,1,1,0] 2 =
    Tree.node 0 0 0 (Tree.node 1 0 1 (Tree.leaf 0) (Tree.leaf 1))
      (Tree.node 1 0 1 (Tree.leaf 1) (Tree.leaf 0)) := by
  rw [dtree_grow, ldt_grow]
  rw [if_neg (by decide)]
  simp only [xor_best_split]
  rw [dif_pos (by constructor <;> decide)]
  norm_num [grow_l, grow_r]

/-- C1: training a tree on the XOR dataset (features
`[[1,1],[0,1],[1,0],[0,0]]` as a flat row-major matrix with `ncol = 2`,
`nrow = 4`; labels `[0,1,1,0]`) with the default parameters and running
batch prediction on the same four rows returns exactly `[0, 1, 1, 0]`. -/
theorem xor_train_predict : dtree_predict
    (dtree_grow [1,1,0,1,1,0,0,0] [0,1,1,0] 2) [1,1,0,1,1,0,0,0] 2 4 = [0,1,1,0] := by
  rw [grow_top]
  simp [dtree_predict, dtree_predict_single, List.range_succ]
  norm_num

/-! ## The selection behaviour of the candidate fold -/

theorem foldl_stepSplit_const {d t : List ℚ} {n : ℕ} (L : List (ℕ × ℚ)) (s : Split) (g : ℝ)
    (h : ∀ c ∈ L, validCand d t n c = true → candGain d t n c ≤ g) :
    L.foldl (stepSplit d t n) (s, g) = (s, g) := by
  induction L with
  | nil => rfl
  | cons a L ih =>
    rw [List.foldl_cons]
    have ha : stepSplit d t n (s, g) a = (s, g) := by
      cases hv : validCand d t n a with
      | false => exact stepSplit_invalid hv
      | true => exact stepSplit_keep (not_lt.2 (h a (List.mem_cons_self a L) hv))
    rw [ha]
    exact ih (fun c hc hvc => h c (List.mem_cons_of_mem a hc) hvc)

theorem foldl_stepSplit_argmax {d t : List ℚ} {n : ℕ} :
    ∀ (L : List (ℕ × ℚ)) (s : Split) (g : ℝ),
    (∃ c ∈ L, validCand d t n c = true ∧ g < candGain d t n c) →
    ∃ (i : ℕ) (hi : i < L.length),
      validCand d t n (L.get ⟨i, hi⟩) = true ∧
      g < candGain d t n (L.get ⟨i, hi⟩) ∧
      L.foldl (stepSplit d t n) (s, g) =
        (candSplit d t n (L.get ⟨i, hi⟩), candGain d t n (L.get ⟨i, hi⟩)) ∧
      (∀ (j : ℕ) (hj : j < L.length), validCand d t n (L.get ⟨j, hj⟩) = true →
        candGain d t n (L.get ⟨j, hj⟩) ≤ candGain d t n (L.get ⟨i, hi⟩)) ∧
      (∀ (j : ℕ) (hj : j < L.length), j < i → validCand d t n (L.get ⟨j, hj⟩) = true →
        candGain d t n (L.get ⟨j, hj⟩) < candGain d t n (L.get ⟨i, hi⟩)) := by
  intro L
  induction L with
  | nil =>
    rintro s g ⟨c, hc, _⟩
    exact absurd hc (List.not_mem_nil c)
  | cons a L ih =>
    intro s g hex
    by_cases hva : validCand d t n a = true ∧ g < candGain d t n a
    · obtain ⟨hva1, hva2⟩ := hva
      rw [List.foldl_cons, stepSplit_improve hva1 hva2]
      by_cases hL : ∃ c ∈ L, validCand d t n c = true ∧ candGain d t n a < candGain d t n c
      · obtain ⟨i', hi', h1, h2, h3, h4, h5⟩ := ih (candSplit d t n a) (candGain d t n a) hL
        refine ⟨i' + 1, Nat.succ_lt_succ hi', ?_, ?_, ?_, ?_, ?_⟩
        · simpa using h1
        · simpa using lt_trans hva2 h2
        · simpa using h3
        · intro j hj hvj
          cases j with
          | zero => simpa using le_of_lt h2
          | succ j' =>
            have hj' : j' < L.length := Nat.lt_of_succ_lt_succ hj
            simpa using h4 j' hj' (by simpa using hvj)
        · intro j hj hlt hvj
          cases j with
          | zero => simpa using h2
          | succ j' =>
            have hj' : j' < L.length := Nat.lt_of_succ_lt_succ hj
            simpa using h5 j' hj' (Nat.lt_of_succ_lt_succ hlt) (by simpa using hvj)
      · push_neg at hL
        have hconst : L.foldl (stepSplit d t n) (candSplit d t n a, candGain d t n a) =
            (candSplit d t n a, candGain d t n a) :=
          foldl_stepSplit_const L _ _ (fun c hc hvc => hL c hc hvc)
        refine ⟨0, Nat.succ_pos _, by simpa using hva1, by simpa using hva2, ?_, ?_, ?_⟩
        · simpa using hconst
        · intro j hj hvj
          cases j with
          | zero => simp
          | succ j' =>
            have hj' : j' < L.length := Nat.lt_of_succ_lt_succ hj
            simpa using hL (L.get ⟨j', hj'⟩) (L.get_mem _ _) (by simpa using hvj)
        · intro j hj hlt hvj
          exact absurd hlt (Nat.not_lt_zero j)
    · have hstep : stepSplit d t n (s, g) a = (s, g) := by
        cases hv : validCand d t n a with
        | false => exact stepSplit_invalid hv
        | true =>
          refine stepSplit_keep ?_
          intro hgt
          exact hva ⟨hv, hgt⟩
      rw [List.foldl_cons, hstep]
      have hexL : ∃ c ∈ L, validCand d t n c = true ∧ g < candGain d t n c := by
        obtain ⟨c, hc, hvc, hgc⟩ := hex
        rcases List.mem_cons.1 hc with rfl | hcL
        · exact absurd ⟨hvc, hgc⟩ hva
        · exact ⟨c, hcL, hvc, hgc⟩
      obtain ⟨i', hi', h1, h2, h3, h4, h5⟩ := ih s g hexL
      refine ⟨i' + 1, Nat.succ_lt_succ hi', by simpa using h1, by simpa using h2,
        by simpa using h3, ?_, ?_⟩
      · intro j hj hvj
        cases j with
        | zero =>
          have hle : candGain d t n a ≤ g := not_lt.1 (fun hgt => hva ⟨hvj, hgt⟩)
          exact le_of_lt (lt_of_le_of_lt hle h2)
        | succ j' =>
          have hj' : j' < L.length := Nat.lt_of_succ_lt_succ hj
          exact h4 j' hj' hvj
      · intro j hj hlt hvj
        cases j with
        | zero =>
          have hle : candGain d t n a ≤ g := not_lt.1 (fun hgt => hva ⟨hvj, hgt⟩)
          exact lt_of_le_of_lt hle h2
        | succ j' =>
          have hj' : j' < L.length := Nat.lt_of_succ_lt_succ hj
          exact h5 j' hj' (Nat.lt_of_succ_lt_succ hlt) hvj

/-! ## Entropy as a class-distribution sum, and non-negativity of the gain -/


theorem cint_intCast (k : ℤ) : cint (k : ℚ) = k := by
  rw [cint]
  split
  · exact Int.floor_intCast k
  · exact Int.ceil_intCast k

theorem intlabel_cast_cint {v : ℚ} (h : ∃ k : ℤ, v = (k : ℚ)) :
    ((cint v : ℤ) : ℚ) = v := by
  obtain ⟨k, rfl⟩ := h
  rw [cint_intCast]

theorem binCnt_pos_of_mem {x : List ℚ} {v : ℚ} (h : v ∈ x) :
    0 < binCnt x (cint v) := by
  rw [binCnt, List.countP_pos_iff]
  exact ⟨v, h, beq_self_eq_true _⟩

theorem sum_list_nodup (f : ℤ → ℝ) (l : List ℤ) (h : l.Nodup) :
    l.toFinset.sum f = (l.map f).sum := by
  rw [← List.toFinset_eq h]
  rfl

theorem foldl_entropy_sum (x : List ℚ) :
    ∀ (u : List ℚ) (a : ℝ), (∀ v ∈ u, 0 < (binCnt x (cint v) : ℚ) / (x.length : ℚ)) →
    u.foldl (fun acc v =>
        let p : ℚ := (binCnt x (cint v) : ℚ) / (x.length : ℚ)
        if 0 < p then acc + (p : ℝ) * Real.logb 2 (p : ℝ) else acc) a =
      a + (u.map (fun v =>
        (((binCnt x (cint v) : ℚ) / (x.length : ℚ) : ℚ) : ℝ) *
          Real.logb 2 (((binCnt x (cint v) : ℚ) / (x.length : ℚ) : ℚ) : ℝ))).sum := by
  intro u
  induction u with
  | nil => simp
  | cons v u ih =>
    intro a h
    rw [List.foldl_cons]
    simp only
    rw [if_pos (h v (List.mem_cons_self v u))]
    rw [ih _ (fun w hw => h w (List.mem_cons_of_mem v hw))]
    simp [add_assoc]

theorem entropy_eq_entS {x : List ℚ} (hx : IntLabels x) (hne : x ≠ []) :
    entropy x = entS x / Real.log 2 := by
  have hlen : 0 < (x.length : ℚ) := by
    have := List.length_pos.2 hne
    exact_mod_cast this
  have hpos : ∀ v ∈ ldt_listunique x, 0 < (binCnt x (cint v) : ℚ) / (x.length : ℚ) := by
    intro v hv
    have hvx : v ∈ x := mem_ldt_listunique.1 hv
    have := binCnt_pos_of_mem hvx
    positivity
  rw [entropy, foldl_entropy_sum x (ldt_listunique x) 0 hpos, zero_add]
  -- turn the list sum into a Finset sum over the class set
  have hnd : ((ldt_listunique x).map cint).Nodup := by
    refine List.Nodup.map_on ?_ (nodup_ldt_listunique x)
    intro v hv w hw hc
    have hv' : ((cint v : ℤ) : ℚ) = v := intlabel_cast_cint (hx v (mem_ldt_listunique.1 hv))
    have hw' : ((cint w : ℤ) : ℚ) = w := intlabel_cast_cint (hx w (mem_ldt_listunique.1 hw))
    rw [← hv', ← hw', hc]
  have hset : ((ldt_listunique x).map cint).toFinset = classSet x := by
    apply Finset.ext
    intro k
    simp only [List.mem_toFinset, List.mem_map, classSet]
    constructor
    · rintro ⟨v, hv, rfl⟩
      exact ⟨v, mem_ldt_listunique.1 hv, rfl⟩
    · rintro ⟨v, hv, rfl⟩
      exact ⟨v, mem_ldt_listunique.2 hv, rfl⟩
  have hsum : ((ldt_listunique x).map (fun v =>
      (((binCnt x (cint v) : ℚ) / (x.length : ℚ) : ℚ) : ℝ) *
        Real.logb 2 (((binCnt x (cint v) : ℚ) / (x.length : ℚ) : ℚ) : ℝ))).sum =
      ∑ k ∈ classSet x, ((((binCnt x k : ℚ) / (x.length : ℚ) : ℚ) : ℝ) *
        Real.logb 2 ((((binCnt x k : ℚ) / (x.length : ℚ) : ℚ)) : ℝ)) := by
    rw [← hset, sum_list_nodup _ _ hnd, List.map_map]
    rfl
  rw [hsum]
  rw [entS, Finset.sum_div, ← Finset.sum_neg_distrib]
  apply Finset.sum_congr rfl
  intro k _
  rw [Real.negMulLog, Real.logb]
  push_cast
  ring



theorem binCnt_append (a b : List ℚ) (k : ℤ) :
    binCnt (a ++ b) k = binCnt a k + binCnt b k := by
  rw [binCnt, binCnt, binCnt, List.countP_append]

theorem binCnt_perm {a b : List ℚ} (h : a.Perm b) (k : ℤ) :
    binCnt a k = binCnt b k := h.countP_eq _

theorem binCnt_eq_zero_of_not_mem {x : List ℚ} {k : ℤ} (h : k ∉ classSet x) :
    binCnt x k = 0 := by
  rw [binCnt, List.countP_eq_zero]
  intro e he hbe
  apply h
  rw [classSet, List.mem_toFinset, List.mem_map]
  exact ⟨e, he, by simpa using hbe⟩

theorem classSet_subset {a t : List ℚ} (h : ∀ e ∈ a, e ∈ t) :
    classSet a ⊆ classSet t := by
  intro k hk
  rw [classSet, List.mem_toFinset, List.mem_map] at hk
  rw [classSet, List.mem_toFinset, List.mem_map]
  obtain ⟨e, he, rfl⟩ := hk
  exact ⟨e, h e he, rfl⟩

theorem entS_superadditive {t lt rt : List ℚ} (hp : (lt ++ rt).Perm t)
    (hl : lt ≠ []) (hr : rt ≠ []) :
    ((lt.length : ℝ) / (t.length : ℝ)) * entS lt +
      ((rt.length : ℝ) / (t.length : ℝ)) * entS rt ≤ entS t := by
  have hn : lt.length + rt.length = t.length := by simpa using hp.length_eq
  have hnl : 0 < lt.length := List.length_pos.2 hl
  have hnr : 0 < rt.length := List.length_pos.2 hr
  have hnl' : ((lt.length : ℝ)) ≠ 0 := by positivity
  have hnr' : ((rt.length : ℝ)) ≠ 0 := by positivity
  have hnt : 0 < t.length := by omega
  have hnt' : ((t.length : ℝ)) ≠ 0 := by positivity
  have hmeml : ∀ e ∈ lt, e ∈ t := fun e he => hp.subset (List.mem_append_left rt he)
  have hmemr : ∀ e ∈ rt, e ∈ t := fun e he => hp.subset (List.mem_append_right lt he)
  have hextl : entS lt =
      ∑ k ∈ classSet t, Real.negMulLog ((binCnt lt k : ℝ) / (lt.length : ℝ)) := by
    rw [entS]
    refine Finset.sum_subset (classSet_subset hmeml) ?_
    intro k _ hnk
    rw [binCnt_eq_zero_of_not_mem hnk]
    simp
  have hextr : entS rt =
      ∑ k ∈ classSet t, Real.negMulLog ((binCnt rt k : ℝ) / (rt.length : ℝ)) := by
    rw [entS]
    refine Finset.sum_subset (classSet_subset hmemr) ?_
    intro k _ hnk
    rw [binCnt_eq_zero_of_not_mem hnk]
    simp
  rw [hextl, hextr, Finset.mul_sum, Finset.mul_sum, ← Finset.sum_add_distrib, entS]
  apply Finset.sum_le_sum
  intro k _
  have hcnt : (binCnt t k : ℝ) = (binCnt lt k : ℝ) + (binCnt rt k : ℝ) := by
    rw [← binCnt_perm hp k, binCnt_append]
    push_cast
    ring
  have hcc := Real.concaveOn_negMulLog.2
    (Set.mem_Ici.2 (by positivity : (0:ℝ) ≤ (binCnt lt k : ℝ) / (lt.length : ℝ)))
    (Set.mem_Ici.2 (by positivity : (0:ℝ) ≤ (binCnt rt k : ℝ) / (rt.length : ℝ)))
    (by positivity : (0:ℝ) ≤ (lt.length : ℝ) / (t.length : ℝ))
    (by positivity : (0:ℝ) ≤ (rt.length : ℝ) / (t.length : ℝ))
    (by field_simp; exact_mod_cast hn)
  have hpoint : ((lt.length : ℝ) / (t.length : ℝ)) • ((binCnt lt k : ℝ) / (lt.length : ℝ)) +
      ((rt.length : ℝ) / (t.length : ℝ)) • ((binCnt rt k : ℝ) / (rt.length : ℝ)) =
      (binCnt t k : ℝ) / (t.length : ℝ) := by
    rw [smul_eq_mul, smul_eq_mul, hcnt]
    field_simp
    ring
  rw [hpoint] at hcc
  simpa [smul_eq_mul] using hcc

theorem gain_nonneg_of_partition {t lt rt : List ℚ} (hx : IntLabels t)
    (hp : (lt ++ rt).Perm t) (hl : lt ≠ []) (hr : rt ≠ []) :
    0 ≤ gain t lt rt := by
  have ht : t ≠ [] := by
    intro h
    rw [h] at hp
    have := hp.length_eq
    simp [List.length_append] at this
    exact hl this.1
  have hxl : IntLabels lt := fun e he => hx e (hp.subset (List.mem_append_left rt he))
  have hxr : IntLabels rt := fun e he => hx e (hp.subset (List.mem_append_right lt he))
  rw [gain, entropy_eq_entS hx ht, entropy_eq_entS hxl hl, entropy_eq_entS hxr hr]
  have hlog : 0 < Real.log 2 := Real.log_pos (by norm_num)
  have h := entS_superadditive hp hl hr
  rw [sub_nonneg]
  have heq : ((lt.length : ℝ) / (t.length : ℝ)) * (entS lt / Real.log 2) +
      ((rt.length : ℝ) / (t.length : ℝ)) * (entS rt / Real.log 2) =
      (((lt.length : ℝ) / (t.length : ℝ)) * entS lt +
        ((rt.length : ℝ) / (t.length : ℝ)) * entS rt) / Real.log 2 := by
    ring
  rw [heq]
  exact (div_le_div_iff_of_pos_right hlog).2 h

theorem candGain_nonneg {d t : List ℚ} {n : ℕ} {c : ℕ × ℚ} (hx : IntLabels t)
    (hv : validCand d t n c = true) : 0 ≤ candGain d t n c := by
  obtain ⟨hl, hr⟩ := validCand_target_ne hv
  exact gain_nonneg_of_partition hx (leftTarget_append_rightTarget_perm d t n c.1 c.2) hl hr

/-! ## Structural helpers: split cases, majority scan, depth bound, single row -/


theorem classify_value_eq (t : List ℚ) :
    classify_value t = (argmaxFold (fun k => binCnt t (k : ℤ)) (ldt_arrmax t)).1 := rfl

theorem argmaxFold_zero (cnt : ℕ → ℕ) : argmaxFold cnt 0 = (0, cnt 0) := by
  rw [argmaxFold, show List.range (0 + 1) = [0] from rfl, List.foldl_cons, List.foldl_nil,
    if_neg (lt_irrefl _)]

theorem argmaxFold_succ (cnt : ℕ → ℕ) (m : ℕ) :
    argmaxFold cnt (m + 1) =
      if (argmaxFold cnt m).2 < cnt (m + 1) then (m + 1, cnt (m + 1))
      else argmaxFold cnt m := by
  rw [argmaxFold, List.range_succ, List.foldl_append, List.foldl_cons, List.foldl_nil,
    argmaxFold]

theorem argmaxFold_spec (cnt : ℕ → ℕ) : ∀ m : ℕ,
    (argmaxFold cnt m).1 ≤ m ∧
    (argmaxFold cnt m).2 = cnt (argmaxFold cnt m).1 ∧
    (∀ k ≤ m, cnt k ≤ cnt (argmaxFold cnt m).1) ∧
    (∀ j < (argmaxFold cnt m).1, cnt j < cnt (argmaxFold cnt m).1) := by
  intro m
  induction m with
  | zero =>
    rw [argmaxFold_zero]
    refine ⟨le_refl _, rfl, ?_, ?_⟩
    · intro k hk
      have : k = 0 := Nat.le_zero.1 hk
      rw [this]
    · intro j hj
      exact absurd hj (Nat.not_lt_zero j)
  | succ m ih =>
    obtain ⟨ih1, ih2, ih3, ih4⟩ := ih
    rw [argmaxFold_succ]
    by_cases hc : (argmaxFold cnt m).2 < cnt (m + 1)
    · rw [if_pos hc]
      rw [ih2] at hc
      refine ⟨le_refl _, rfl, ?_, ?_⟩
      · intro k hk
        rcases Nat.lt_succ_iff_lt_or_eq.1 (Nat.lt_succ_of_le hk) with hk' | hk'
        · exact le_of_lt (lt_of_le_of_lt (ih3 k (Nat.lt_succ_iff.1 hk')) hc)
        · rw [hk']
      · intro j hj
        exact lt_of_le_of_lt (ih3 j (Nat.lt_succ_iff.1 hj)) hc
    · rw [if_neg hc]
      rw [ih2] at hc
      refine ⟨Nat.le_succ_of_le ih1, ih2, ?_, ih4⟩
      intro k hk
      rcases Nat.lt_succ_iff_lt_or_eq.1 (Nat.lt_succ_of_le hk) with hk' | hk'
      · exact ih3 k (Nat.lt_succ_iff.1 hk')
      · rw [hk']
        exact not_lt.1 hc

theorem foldl_stepSplit_invariant {d t : List ℚ} {n : ℕ} :
    ∀ (L : List (ℕ × ℚ)) (s : Split) (g : ℝ),
    (s = initSplit ∨ ∃ c, validCand d t n c = true ∧ s = candSplit d t n c) →
    ((L.foldl (stepSplit d t n) (s, g)).1 = initSplit ∨
      ∃ c, validCand d t n c = true ∧
        (L.foldl (stepSplit d t n) (s, g)).1 = candSplit d t n c) := by
  intro L
  induction L with
  | nil => intro s g h; exact h
  | cons a L ih =>
    intro s g h
    rw [List.foldl_cons]
    cases hv : validCand d t n a with
    | false =>
      rw [stepSplit_invalid hv]
      exact ih s g h
    | true =>
      by_cases hg : candGain d t n a > g
      · rw [stepSplit_improve hv hg]
        exact ih _ _ (Or.inr ⟨a, hv, rfl⟩)
      · rw [stepSplit_keep hg]
        exact ih s g h

theorem best_split_cases (d t : List ℚ) (n : ℕ) :
    best_split d t n = initSplit ∨
      ∃ c, validCand d t n c = true ∧ best_split d t n = candSplit d t n c := by
  rw [best_split]
  exact foldl_stepSplit_invariant _ _ _ (Or.inl rfl)

theorem best_split_ltarget_lt {d t : List ℚ} {n : ℕ} (ht : t ≠ []) :
    (best_split d t n).ltarget.length < t.length ∧
      (best_split d t n).rtarget.length < t.length := by
  have hpos : 0 < t.length := List.length_pos.2 ht
  rcases best_split_cases d t n with h | ⟨c, hv, h⟩
  · rw [h]
    exact ⟨hpos, hpos⟩
  · rw [h]
    exact validCand_lengths hv

theorem best_split_eq_init_of_no_valid {d t : List ℚ} {n : ℕ}
    (h : validCands d t n = []) : best_split d t n = initSplit := by
  rw [best_split]
  have hno : ∀ c ∈ candPairs d n t.length, validCand d t n c = true →
      candGain d t n c ≤ -1 := by
    intro c hc hv
    exfalso
    have hmem : c ∈ validCands d t n := List.mem_filter.2 ⟨hc, hv⟩
    rw [h] at hmem
    exact List.not_mem_nil c hmem
  rw [foldl_stepSplit_const _ _ _ hno]

theorem ldt_grow_depth_bound : ∀ (N : ℕ) (d t : List ℚ), t.length < N →
    ∀ (n : ℕ) (depth : ℤ) (p : TreeParam), depth ≤ p.maxdepth →
    ((ldt_grow d t n depth p).depth : ℤ) ≤ p.maxdepth - depth := by
  intro N
  induction N with
  | zero =>
    intro d t h
    exact absurd h (Nat.not_lt_zero _)
  | succ N ih =>
    intro d t hN n depth p hdep
    rw [ldt_grow]
    by_cases hcond : ispure t = true ∨ (t.length : ℤ) < p.min_sample_split ∨
        depth = p.maxdepth
    · rw [if_pos hcond]
      simp only [classify_asleaf, Tree.depth]
      omega
    · rw [if_neg hcond]
      push_neg at hcond
      obtain ⟨h1, h2, h3⟩ := hcond
      have hlt : depth < p.maxdepth := lt_of_le_of_ne hdep h3
      by_cases hd : (best_split d t n).ltarget.length < t.length ∧
          (best_split d t n).rtarget.length < t.length
      · rw [dif_pos hd]
        have hl := ih (best_split d t n).ldata (best_split d t n).ltarget
          (by omega) n (depth + 1) p (by omega)
        have hr := ih (best_split d t n).rdata (best_split d t n).rtarget
          (by omega) n (depth + 1) p (by omega)
        have hnode : (Tree.node (best_split d t n).featidx (best_split d t n).thresh
            (best_split d t n).gain
            (ldt_grow (best_split d t n).ldata (best_split d t n).ltarget n (depth + 1) p)
            (ldt_grow (best_split d t n).rdata (best_split d t n).rtarget n (depth + 1) p)).depth =
            max (ldt_grow (best_split d t n).ldata (best_split d t n).ltarget n
              (depth + 1) p).depth
              (ldt_grow (best_split d t n).rdata (best_split d t n).rtarget n
                (depth + 1) p).depth + 1 := rfl
        rw [hnode]
        push_cast
        have hm := max_le hl hr
        rw [← Nat.cast_max] at hm
        push_cast at hm
        linarith
      · rw [dif_neg hd]
        simp only [Tree.depth, classify_asleaf]
        omega

theorem ldt_arrmax_single (k : ℕ) : ldt_arrmax [(k : ℚ)] = k := by
  have hc : cint ((k : ℕ) : ℚ) = (k : ℤ) := by
    rw [← Int.cast_natCast]
    exact cint_intCast (k : ℤ)
  rw [ldt_arrmax, List.foldl_cons, List.foldl_nil]
  by_cases h : ((0 : ℕ) : ℚ) < (k : ℚ)
  · rw [if_pos h, hc, Int.toNat_natCast]
  · rw [if_neg h]
    have hk : k = 0 := by
      by_contra hne
      exact h (by exact_mod_cast Nat.pos_of_ne_zero hne)
    omega

theorem binCnt_single (k : ℕ) (j : ℤ) :
    binCnt [(k : ℚ)] j = if (k : ℤ) = j then 1 else 0 := by
  have hc : cint ((k : ℕ) : ℚ) = (k : ℤ) := by
    rw [← Int.cast_natCast]
    exact cint_intCast (k : ℤ)
  rw [binCnt, List.countP_cons, List.countP_nil]
  simp [hc]

theorem classify_value_single (k : ℕ) : classify_value [(k : ℚ)] = k := by
  rw [classify_value_eq, ldt_arrmax_single]
  obtain ⟨h1, h2, h3, h4⟩ := argmaxFold_spec (fun i => binCnt [(k : ℚ)] (i : ℤ)) k
  by_contra hne
  have hck : binCnt [(k : ℚ)] ((k : ℕ) : ℤ) = 1 := by
    rw [binCnt_single, if_pos rfl]
  have hcr : binCnt [(k : ℚ)]
      (((argmaxFold (fun i => binCnt [(k : ℚ)] (i : ℤ)) k).1 : ℕ) : ℤ) = 0 := by
    rw [binCnt_single, if_neg]
    intro hh
    exact hne (by exact_mod_cast hh.symm)
  have hle := h3 k (le_refl k)
  simp only [hck, hcr] at hle
  omega

theorem ispure_single (v : ℚ) : ispure [v] = true := rfl

theorem grow_single_label (d : List ℚ) (n : ℕ) (p : TreeParam) (k : ℕ) :
    dtree_grow_with_param d [(k : ℚ)] n p = Tree.leaf (k : ℚ) := by
  rw [dtree_grow_with_param, ldt_grow, if_pos (Or.inl (ispure_single (k : ℚ))),
    classify_asleaf, classify_value_single]

/-! ## The claims -/

theorem ldt_grow_eq (d t : List ℚ) (n : ℕ) (depth : ℤ) (p : TreeParam) :
    ldt_grow d t n depth p =
      if ispure t = true ∨ (t.length : ℤ) < p.min_sample_split ∨ depth = p.maxdepth then
        classify_asleaf t
      else if _h : (best_split d t n).ltarget.length < t.length ∧
          (best_split d t n).rtarget.length < t.length then
        Tree.node (best_split d t n).featidx (best_split d t n).thresh
          (best_split d t n).gain
          (ldt_grow (best_split d t n).ldata (best_split d t n).ltarget n (depth + 1) p)
          (ldt_grow (best_split d t n).rdata (best_split d t n).rtarget n (depth + 1) p)
      else
        Tree.node (best_split d t n).featidx (best_split d t n).thresh
          (best_split d t n).gain
          (classify_asleaf (best_split d t n).ltarget)
          (classify_asleaf (best_split d t n).rtarget) := by
  rw [ldt_grow]

/-- C2: `best_split` scans the candidates in the order of `candPairs`
(features ascending, thresholds in first-occurrence order of each column's
distinct values), skips candidates with an empty partition, starts the best
gain at the sentinel `-1` and replaces it only on strict improvement; since
valid candidates have non-negative gain under the integral-label contract,
any valid candidate replaces the sentinel, and among candidates of equal
maximal gain the first one in visit order wins. -/
theorem best_split_first_argmax (d t : List ℚ) (n : ℕ) (hx : IntLabels t) :
    (validCands d t n = [] ∧ best_split d t n = initSplit) ∨
    (∃ (i : ℕ) (hi : i < (candPairs d n t.length).length),
      validCand d t n ((candPairs d n t.length).get ⟨i, hi⟩) = true ∧
      best_split d t n = candSplit d t n ((candPairs d n t.length).get ⟨i, hi⟩) ∧
      (∀ (j : ℕ) (hj : j < (candPairs d n t.length).length),
        validCand d t n ((candPairs d n t.length).get ⟨j, hj⟩) = true →
        candGain d t n ((candPairs d n t.length).get ⟨j, hj⟩) ≤
          candGain d t n ((candPairs d n t.length).get ⟨i, hi⟩)) ∧
      (∀ (j : ℕ) (hj : j < (candPairs d n t.length).length), j < i →
        validCand d t n ((candPairs d n t.length).get ⟨j, hj⟩) = true →
        candGain d t n ((candPairs d n t.length).get ⟨j, hj⟩) <
          candGain d t n ((candPairs d n t.length).get ⟨i, hi⟩))) := by
  by_cases h : validCands d t n = []
  · exact Or.inl ⟨h, best_split_eq_init_of_no_valid h⟩
  · right
    obtain ⟨c, hc⟩ := List.exists_mem_of_ne_nil _ h
    have hcp : c ∈ candPairs d n t.length := (List.mem_filter.1 hc).1
    have hcv : validCand d t n c = true := (List.mem_filter.1 hc).2
    have hgn : (-1 : ℝ) < candGain d t n c :=
      lt_of_lt_of_le (by norm_num) (candGain_nonneg hx hcv)
    obtain ⟨i, hi, a1, a2, a3, a4, a5⟩ := foldl_stepSplit_argmax
      (candPairs d n t.length) initSplit (-1) ⟨c, hcp, hcv, hgn⟩
    refine ⟨i, hi, a1, ?_, a4, a5⟩
    rw [best_split, a3]

/-- C3: `ldt_grow` emits a leaf exactly when the labels are pure, the row
count is below `min_sample_split`, or the depth equals `maxdepth`; otherwise
(on a non-empty label list) it returns an internal node carrying the best
split and the two recursive calls at `depth + 1`; and with `maxdepth = 0`
the tree grown from depth `0` is a single leaf for every input. -/
theorem grow_leaf_iff (d t : List ℚ) (n : ℕ) (depth : ℤ) (p : TreeParam) (ht : t ≠ []) :
    ((ldt_grow d t n depth p).isLeaf = true ↔
      (ispure t = true ∨ (t.length : ℤ) < p.min_sample_split ∨ depth = p.maxdepth)) ∧
    (¬(ispure t = true ∨ (t.length : ℤ) < p.min_sample_split ∨ depth = p.maxdepth) →
      ldt_grow d t n depth p =
        Tree.node (best_split d t n).featidx (best_split d t n).thresh
          (best_split d t n).gain
          (ldt_grow (best_split d t n).ldata (best_split d t n).ltarget n (depth + 1) p)
          (ldt_grow (best_split d t n).rdata (best_split d t n).rtarget n (depth + 1) p)) ∧
    (p.maxdepth = 0 → (dtree_grow_with_param d t n p).isLeaf = true) := by
  refine ⟨?_, ?_, ?_⟩
  · rw [ldt_grow_eq]
    by_cases hcond : ispure t = true ∨ (t.length : ℤ) < p.min_sample_split ∨
        depth = p.maxdepth
    · rw [if_pos hcond]
      simp [classify_asleaf, Tree.isLeaf, hcond]
    · rw [if_neg hcond]
      rw [dif_pos (best_split_ltarget_lt ht)]
      simp [Tree.isLeaf, hcond]
  · intro hcond
    rw [ldt_grow_eq, if_neg hcond, dif_pos (best_split_ltarget_lt ht)]
  · intro h0
    rw [dtree_grow_with_param, ldt_grow_eq, if_pos (Or.inr (Or.inr (by rw [h0])))]
    simp [classify_asleaf, Tree.isLeaf]

/-- C4: the value stored in a leaf is the majority class: the class index in
`[0, ldt_arrmax target]` with the highest occurrence count, ties broken
toward the lowest index; concretely labels `[0,0,1,1]` give leaf value `0`. -/
theorem classify_majority (t : List ℚ) :
    classify_value t ≤ ldt_arrmax t ∧
    (∀ k ≤ ldt_arrmax t, binCnt t (k : ℤ) ≤ binCnt t (classify_value t : ℤ)) ∧
    (∀ j < classify_value t, binCnt t (j : ℤ) < binCnt t (classify_value t : ℤ)) ∧
    classify_asleaf [0, 0, 1, 1] = Tree.leaf 0 := by
  obtain ⟨h1, h2, h3, h4⟩ := argmaxFold_spec (fun k => binCnt t (k : ℤ)) (ldt_arrmax t)
  rw [classify_value_eq]
  refine ⟨h1, h3, h4, ?_⟩
  rw [classify_asleaf, show classify_value [0, 0, 1, 1] = 0 from by decide]
  norm_num

/-- C5: the split returned for the winning candidate `(f, v)` is made of the
complete feature rows whose column-`f` entry is `≤ v` (left) and `> v`
(right), in original row order, with the labels partitioned identically;
both partitions are non-empty and their row counts sum to `nrow`. -/
theorem best_split_partition_rows (d t : List ℚ) (n : ℕ) (hx : IntLabels t)
    (hv : validCands d t n ≠ []) :
    ∃ (f : ℕ) (v : ℚ),
      (best_split d t n).featidx = f ∧
      (best_split d t n).thresh = v ∧
      (best_split d t n).ldata =
        ((List.range t.length).filter (fun r => colVal d n f r ≤ v)).flatMap (rowOf d n) ∧
      (best_split d t n).ltarget =
        ((List.range t.length).filter (fun r => colVal d n f r ≤ v)).map
          (fun r => t.getD r 0) ∧
      (best_split d t n).rdata =
        ((List.range t.length).filter
          (fun r => !(colVal d n f r ≤ v : Bool))).flatMap (rowOf d n) ∧
      (best_split d t n).rtarget =
        ((List.range t.length).filter
          (fun r => !(colVal d n f r ≤ v : Bool))).map (fun r => t.getD r 0) ∧
      (best_split d t n).ltarget ≠ [] ∧
      (best_split d t n).rtarget ≠ [] ∧
      (best_split d t n).lnrow = (best_split d t n).ltarget.length ∧
      (best_split d t n).rnrow = (best_split d t n).rtarget.length ∧
      (best_split d t n).lnrow + (best_split d t n).rnrow = t.length := by
  obtain ⟨c, hc⟩ := List.exists_mem_of_ne_nil _ hv
  have hcp : c ∈ candPairs d n t.length := (List.mem_filter.1 hc).1
  have hcv : validCand d t n c = true := (List.mem_filter.1 hc).2
  have hgn : (-1 : ℝ) < candGain d t n c :=
    lt_of_lt_of_le (by norm_num) (candGain_nonneg hx hcv)
  obtain ⟨i, hi, a1, a2, a3, a4, a5⟩ := foldl_stepSplit_argmax
    (candPairs d n t.length) initSplit (-1) ⟨c, hcp, hcv, hgn⟩
  have hbs : best_split d t n =
      candSplit d t n ((candPairs d n t.length).get ⟨i, hi⟩) := by
    rw [best_split, a3]
  obtain ⟨hl, hr⟩ := validCand_target_ne a1
  have hadd := leftTarget_length_add d t n ((candPairs d n t.length).get ⟨i, hi⟩).1
    ((candPairs d n t.length).get ⟨i, hi⟩).2
  refine ⟨((candPairs d n t.length).get ⟨i, hi⟩).1,
    ((candPairs d n t.length).get ⟨i, hi⟩).2, ?_, ?_, ?_, ?_, ?_, ?_, ?_, ?_, ?_, ?_, ?_⟩
  · rw [hbs]
    rfl
  · rw [hbs]
    rfl
  · rw [hbs]
    rfl
  · rw [hbs]
    rfl
  · rw [hbs]
    rfl
  · rw [hbs]
    rfl
  · rw [hbs]
    exact hl
  · rw [hbs]
    exact hr
  · rw [hbs]
    rfl
  · rw [hbs]
    rfl
  · rw [hbs]
    exact hadd

theorem validCand_iff {d t : List ℚ} {n : ℕ} {c : ℕ × ℚ} :
    validCand d t n c = true ↔
      leftData d n t.length c.1 c.2 ≠ [] ∧ rightData d n t.length c.1 c.2 ≠ [] := by
  simp [validCand]

theorem validCands_ne_nil_aux (d t : List ℚ) (n f r1 r2 : ℕ) (hf : f < n)
    (h1 : r1 < t.length) (h2 : r2 < t.length)
    (hlt : colVal d n f r1 < colVal d n f r2) : validCands d t n ≠ [] := by
  have hvmem : colVal d n f r1 ∈ ldt_listunique (ldt_getcol d f n t.length) := by
    rw [mem_ldt_listunique, ldt_getcol]
    exact List.mem_map.2 ⟨r1, List.mem_range.2 h1, rfl⟩
  have hcp : (f, colVal d n f r1) ∈ candPairs d n t.length := by
    rw [candPairs]
    exact List.mem_flatMap.2 ⟨f, List.mem_range.2 hf,
      List.mem_map.2 ⟨colVal d n f r1, hvmem, rfl⟩⟩
  have hrow : ∀ r : ℕ, rowOf d n r ≠ [] := by
    intro r
    rw [rowOf]
    intro hemp
    have := congrArg List.length hemp
    simp at this
    omega
  have hlmem : r1 ∈ leftIdx d n t.length f (colVal d n f r1) :=
    List.mem_filter.2 ⟨List.mem_range.2 h1, by simp⟩
  have hrmem : r2 ∈ rightIdx d n t.length f (colVal d n f r1) :=
    List.mem_filter.2 ⟨List.mem_range.2 h2, by simp [not_le.2 hlt]⟩
  have hld : leftData d n t.length f (colVal d n f r1) ≠ [] := by
    rw [leftData]
    obtain ⟨y, hy⟩ := List.exists_mem_of_ne_nil _ (hrow r1)
    exact List.ne_nil_of_mem (List.mem_flatMap.2 ⟨r1, hlmem, hy⟩)
  have hrd : rightData d n t.length f (colVal d n f r1) ≠ [] := by
    rw [rightData]
    obtain ⟨y, hy⟩ := List.exists_mem_of_ne_nil _ (hrow r2)
    exact List.ne_nil_of_mem (List.mem_flatMap.2 ⟨r2, hrmem, hy⟩)
  have hvc : validCand d t n (f, colVal d n f r1) = true := validCand_iff.2 ⟨hld, hrd⟩
  exact List.ne_nil_of_mem (List.mem_filter.2 ⟨hcp, hvc⟩)

/-- C6 amended: under the label contract, whenever some feature column takes
two distinct values on the current rows, the split search finds at least one
candidate with two non-empty partitions, and the returned winning split has
non-empty label partitions; (the original claim fails when every column is
constant on impure labels — see the counterexample). -/
theorem split_exists_of_nonconstant_column (d t : List ℚ) (n : ℕ) (hx : IntLabels t)
    (f : ℕ) (hf : f < n) (r1 r2 : ℕ) (h1 : r1 < t.length) (h2 : r2 < t.length)
    (hne : colVal d n f r1 ≠ colVal d n f r2) :
    validCands d t n ≠ [] ∧
      (best_split d t n).ltarget ≠ [] ∧ (best_split d t n).rtarget ≠ [] := by
  have hvc : validCands d t n ≠ [] := by
    rcases lt_or_gt_of_ne hne with h | h
    · exact validCands_ne_nil_aux d t n f r1 r2 hf h1 h2 h
    · exact validCands_ne_nil_aux d t n f r2 r1 hf h2 h1 h
  refine ⟨hvc, ?_⟩
  obtain ⟨c, hc⟩ := List.exists_mem_of_ne_nil _ hvc
  have hcp : c ∈ candPairs d n t.length := (List.mem_filter.1 hc).1
  have hcv : validCand d t n c = true := (List.mem_filter.1 hc).2
  have hgn : (-1 : ℝ) < candGain d t n c :=
    lt_of_lt_of_le (by norm_num) (candGain_nonneg hx hcv)
  obtain ⟨i, hi, a1, a2, a3, a4, a5⟩ := foldl_stepSplit_argmax
    (candPairs d n t.length) initSplit (-1) ⟨c, hcp, hcv, hgn⟩
  have hbs : best_split d t n =
      candSplit d t n ((candPairs d n t.length).get ⟨i, hi⟩) := by
    rw [best_split, a3]
  rw [hbs]
  exact validCand_target_ne a1

/-- C6 counterexample: with features `[[1],[1]]` and labels `[0,1]` under the
default parameters, induction reaches the split case (labels impure,
`nrow = 2 ≥ minSamplesSplit = 1`, `depth = 0 ≠ maxdepth = 5`), yet no
candidate has two non-empty partitions, and `ldt_grow` recurses on the empty
partitions, returning an internal node with two empty-label leaves. -/
theorem no_usable_split_reachable :
    (¬(ispure [0, 1] = true ∨ ((List.length [(0 : ℚ), 1] : ℤ) < defaultparam.min_sample_split) ∨
        (0 : ℤ) = defaultparam.maxdepth)) ∧
    validCands [1, 1] [0, 1] 1 = [] ∧
    best_split [1, 1] [0, 1] 1 = initSplit ∧
    (best_split [1, 1] [0, 1] 1).ltarget = [] ∧
    (best_split [1, 1] [0, 1] 1).rtarget = [] ∧
    ldt_grow [1, 1] [0, 1] 1 0 defaultparam =
      Tree.node 0 0 0 (Tree.leaf 0) (Tree.leaf 0) := by
  have hvc : validCands [1, 1] [0, 1] 1 = [] := by decide
  have hbs := best_split_eq_init_of_no_valid hvc
  have hcond : ¬(ispure [0, 1] = true ∨
      ((List.length [(0 : ℚ), 1] : ℤ) < defaultparam.min_sample_split) ∨
      (0 : ℤ) = defaultparam.maxdepth) := by decide
  refine ⟨hcond, hvc, hbs, by rw [hbs]; rfl, by rw [hbs]; rfl, ?_⟩
  rw [ldt_grow_eq, if_neg hcond]
  rw [dif_pos (by rw [hbs]; exact ⟨by norm_num [initSplit], by norm_num [initSplit]⟩)]
  rw [hbs]
  have hgrow_empty : ldt_grow [] [] 1 (0 + 1) defaultparam = Tree.leaf 0 := by
    rw [ldt_grow_eq, if_pos (Or.inr (Or.inl (by norm_num [defaultparam])))]
    rw [classify_asleaf, show classify_value [] = 0 from rfl]
    norm_num
  have h0 : (initSplit.ldata, initSplit.ltarget, initSplit.rdata, initSplit.rtarget) =
      ([], [], [], []) := rfl
  rw [show initSplit.ldata = ([] : List ℚ) from rfl,
    show initSplit.ltarget = ([] : List ℚ) from rfl,
    show initSplit.rdata = ([] : List ℚ) from rfl,
    show initSplit.rtarget = ([] : List ℚ) from rfl, hgrow_empty]
  rfl

/-- C7 amended: when no candidate produces two non-empty partitions,
`best_split` returns the initialised `Split`: empty partitions, zero row
counts, feature index `0`, threshold `0`, and gain field `0` — the internal
sentinel `-1` lives only in the local best-gain variable and is not
returned. -/
theorem best_split_no_valid_returns_init (d t : List ℚ) (n : ℕ)
    (h : validCands d t n = []) :
    best_split d t n = initSplit ∧
    (best_split d t n).gain = 0 ∧
    (best_split d t n).ldata = [] ∧ (best_split d t n).ltarget = [] ∧
    (best_split d t n).lnrow = 0 ∧
    (best_split d t n).rdata = [] ∧ (best_split d t n).rtarget = [] ∧
    (best_split d t n).rnrow = 0 ∧
    (best_split d t n).featidx = 0 ∧ (best_split d t n).thresh = 0 := by
  have hbs := best_split_eq_init_of_no_valid h
  rw [hbs]
  exact ⟨rfl, rfl, rfl, rfl, rfl, rfl, rfl, rfl, rfl, rfl⟩

/-- C7 counterexample: with features `[[1],[1]]` and labels `[0,1]` no
candidate is valid, and the returned `Split` carries gain `0`, not the
sentinel `-1` (which is kept only in the local `bestgain` variable). -/
theorem no_split_sentinel_not_returned :
    validCands [1, 1] [0, 1] 1 = [] ∧
    (best_split [1, 1] [0, 1] 1).gain = 0 ∧
    (best_split [1, 1] [0, 1] 1).gain ≠ -1 := by
  have hvc : validCands [1, 1] [0, 1] 1 = [] := by decide
  have hbs := best_split_eq_init_of_no_valid hvc
  refine ⟨hvc, by rw [hbs]; rfl, by rw [hbs]; norm_num [initSplit]⟩

/-- C8: `dtree_predict_single` returns the leaf value at a leaf, and at an
internal node descends left exactly when `row[featidx] ≤ thresh`;
`dtree_predict` on an `nrow × ncol` row-major matrix (`ncol ≥ 1`) returns
exactly `nrow` values, the `i`-th being `dtree_predict_single` of the `i`-th
input row, in input order. -/
theorem predict_rows (tree : Tree) (data : List ℚ) (ncol nrow : ℕ) (h : 1 ≤ ncol) :
    (dtree_predict tree data ncol nrow).length = nrow ∧
    (∀ i, i < nrow → (dtree_predict tree data ncol nrow).getD i 0 =
      dtree_predict_single tree
        ((List.range ncol).map (fun j => data.getD (ncol * i + j) 0))) ∧
    (∀ (v : ℚ) (row : List ℚ), dtree_predict_single (Tree.leaf v) row = v) ∧
    (∀ (f : ℕ) (th : ℚ) (g : ℝ) (l r : Tree) (row : List ℚ),
      dtree_predict_single (Tree.node f th g l r) row =
        if row.getD f 0 ≤ th then dtree_predict_single l row
        else dtree_predict_single r row) := by
  have hn : ¬ ncol = 0 := by omega
  refine ⟨?_, ?_, fun v row => rfl, fun f th g l r row => rfl⟩
  · rw [dtree_predict, if_neg hn]
    simp
  · intro i hi
    rw [dtree_predict, if_neg hn]
    have hlen : i < ((List.range nrow).map (fun i => dtree_predict_single tree
        ((List.range ncol).map (fun j => data.getD (ncol * i + j) 0)))).length := by
      simp [hi]
    rw [List.getD_eq_getElem _ _ hlen]
    simp

/-- C9: for `maxdepth = d ≥ 0` the tree grown from depth `0` has height at
most `d` internal nodes on any root-to-leaf path; with the default
parameters the bound is `5`. -/
theorem tree_depth_le_maxdepth (d t : List ℚ) (n : ℕ) (p : TreeParam)
    (h : 0 ≤ p.maxdepth) :
    ((dtree_grow_with_param d t n p).depth : ℤ) ≤ p.maxdepth ∧
    ((dtree_grow d t n).depth : ℤ) ≤ 5 := by
  constructor
  · have hb := ldt_grow_depth_bound (t.length + 1) d t (Nat.lt_succ_self _) n 0 p h
    rw [dtree_grow_with_param]
    simpa using hb
  · have hb := ldt_grow_depth_bound (t.length + 1) d t (Nat.lt_succ_self _) n 0
      defaultparam (by norm_num [defaultparam])
    rw [dtree_grow]
    simpa [defaultparam] using hb

/-- C10: training on a single row returns a leaf holding that row's label,
for every non-negative integral label — including a label outside a dense
`0 … K-1` encoding, e.g. the single label `8` with the default parameters
yields leaf value `8`. -/
theorem single_row_leaf (d : List ℚ) (n : ℕ) (p : TreeParam) (k : ℕ) :
    dtree_grow_with_param d [(k : ℚ)] n p = Tree.leaf (k : ℚ) ∧
    dtree_grow d [(8 : ℚ)] n = Tree.leaf 8 := by
  refine ⟨grow_single_label d n p k, ?_⟩
  have h := grow_single_label d n defaultparam 8
  rw [dtree_grow]
  rw [dtree_grow_with_param] at h
  norm_num at h
  exact h

theorem intLabels_xor : IntLabels [0, 1, 1, 0] := by
  intro x hx
  simp only [List.mem_cons, List.not_mem_nil, or_false] at hx
  rcases hx with rfl | rfl | rfl | rfl
  exacts [⟨0, by norm_num⟩, ⟨1, by norm_num⟩, ⟨1, by norm_num⟩, ⟨0, by norm_num⟩]

theorem best_split_first_argmax_witness :
    (validCands [1, 1, 0, 1, 1, 0, 0, 0] [0, 1, 1, 0] 2 = [] ∧
      best_split [1, 1, 0, 1, 1, 0, 0, 0] [0, 1, 1, 0] 2 = initSplit) ∨
    (∃ (i : ℕ)
      (hi : i < (candPairs [1, 1, 0, 1, 1, 0, 0, 0] 2
        (List.length ([0, 1, 1, 0] : List ℚ))).length),
      validCand [1, 1, 0, 1, 1, 0, 0, 0] [0, 1, 1, 0] 2
        ((candPairs [1, 1, 0, 1, 1, 0, 0, 0] 2
          (List.length ([0, 1, 1, 0] : List ℚ))).get ⟨i, hi⟩) = true ∧
      best_split [1, 1, 0, 1, 1, 0, 0, 0] [0, 1, 1, 0] 2 =
        candSplit [1, 1, 0, 1, 1, 0, 0, 0] [0, 1, 1, 0] 2
          ((candPairs [1, 1, 0, 1, 1, 0, 0, 0] 2
            (List.length ([0, 1, 1, 0] : List ℚ))).get ⟨i, hi⟩) ∧
      (∀ (j : ℕ) (hj : j < (candPairs [1, 1, 0, 1, 1, 0, 0, 0] 2
          (List.length ([0, 1, 1, 0] : List ℚ))).length),
        validCand [1, 1, 0, 1, 1, 0, 0, 0] [0, 1, 1, 0] 2
          ((candPairs [1, 1, 0, 1, 1, 0, 0, 0] 2
            (List.length ([0, 1, 1, 0] : List ℚ))).get ⟨j, hj⟩) = true →
        candGain [1, 1, 0, 1, 1, 0, 0, 0] [0, 1, 1, 0] 2
          ((candPairs [1, 1, 0, 1, 1, 0, 0, 0] 2
            (List.length ([0, 1, 1, 0] : List ℚ))).get ⟨j, hj⟩) ≤
          candGain [1, 1, 0, 1, 1, 0, 0, 0] [0, 1, 1, 0] 2
            ((candPairs [1, 1, 0, 1, 1, 0, 0, 0] 2
              (List.length ([0, 1, 1, 0] : List ℚ))).get ⟨i, hi⟩)) ∧
      (∀ (j : ℕ) (hj : j < (candPairs [1, 1, 0, 1, 1, 0, 0, 0] 2
          (List.length ([0, 1, 1, 0] : List ℚ))).length), j < i →
        validCand [1, 1, 0, 1, 1, 0, 0, 0] [0, 1, 1, 0] 2
          ((candPairs [1, 1, 0, 1, 1, 0, 0, 0] 2
            (List.length ([0, 1, 1, 0] : List ℚ))).get ⟨j, hj⟩) = true →
        candGain [1, 1, 0, 1, 1, 0, 0, 0] [0, 1, 1, 0] 2
          ((candPairs [1, 1, 0, 1, 1, 0, 0, 0] 2
            (List.length ([0, 1, 1, 0] : List ℚ))).get ⟨j, hj⟩) <
          candGain [1, 1, 0, 1, 1, 0, 0, 0] [0, 1, 1, 0] 2
            ((candPairs [1, 1, 0, 1, 1, 0, 0, 0] 2
              (List.length ([0, 1, 1, 0] : List ℚ))).get ⟨i, hi⟩))) :=
  best_split_first_argmax [1, 1, 0, 1, 1, 0, 0, 0] [0, 1, 1, 0] 2 intLabels_xor

theorem grow_leaf_iff_witness :
    (ldt_grow [1, 1, 0, 1, 1, 0, 0, 0] [0, 1, 1, 0] 2 0 defaultparam).isLeaf = false := by
  have h := grow_leaf_iff [1, 1, 0, 1, 1, 0, 0, 0] [0, 1, 1, 0] 2 0 defaultparam (by decide)
  have hc : ¬(ispure [0, 1, 1, 0] = true ∨
      ((List.length [(0 : ℚ), 1, 1, 0] : ℤ) < defaultparam.min_sample_split) ∨
      (0 : ℤ) = defaultparam.maxdepth) := by decide
  cases hb : (ldt_grow [1, 1, 0, 1, 1, 0, 0, 0] [0, 1, 1, 0] 2 0 defaultparam).isLeaf
  · rfl
  · exact absurd (h.1.1 hb) hc

theorem classify_majority_witness :
    classify_value [0, 0, 1, 1] ≤ ldt_arrmax [0, 0, 1, 1] ∧
    (∀ k ≤ ldt_arrmax [0, 0, 1, 1],
      binCnt [0, 0, 1, 1] (k : ℤ) ≤ binCnt [0, 0, 1, 1] (classify_value [0, 0, 1, 1] : ℤ)) ∧
    (∀ j < classify_value [0, 0, 1, 1],
      binCnt [0, 0, 1, 1] (j : ℤ) < binCnt [0, 0, 1, 1] (classify_value [0, 0, 1, 1] : ℤ)) ∧
    classify_asleaf [0, 0, 1, 1] = Tree.leaf 0 :=
  classify_majority [0, 0, 1, 1]

theorem best_split_partition_rows_witness :
    ∃ (f : ℕ) (v : ℚ),
      (best_split [1, 1, 0, 1, 1, 0, 0, 0] [0, 1, 1, 0] 2).featidx = f ∧
      (best_split [1, 1, 0, 1, 1, 0, 0, 0] [0, 1, 1, 0] 2).thresh = v ∧
      (best_split [1, 1, 0, 1, 1, 0, 0, 0] [0, 1, 1, 0] 2).ldata =
        ((List.range (List.length ([0, 1, 1, 0] : List ℚ))).filter
          (fun r => colVal [1, 1, 0, 1, 1, 0, 0, 0] 2 f r ≤ v)).flatMap
            (rowOf [1, 1, 0, 1, 1, 0, 0, 0] 2) ∧
      (best_split [1, 1, 0, 1, 1, 0, 0, 0] [0, 1, 1, 0] 2).ltarget =
        ((List.range (List.length ([0, 1, 1, 0] : List ℚ))).filter
          (fun r => colVal [1, 1, 0, 1, 1, 0, 0, 0] 2 f r ≤ v)).map
            (fun r => List.getD [0, 1, 1, 0] r 0) ∧
      (best_split [1, 1, 0, 1, 1, 0, 0, 0] [0, 1, 1, 0] 2).rdata =
        ((List.range (List.length ([0, 1, 1, 0] : List ℚ))).filter
          (fun r => !(colVal [1, 1, 0, 1, 1, 0, 0, 0] 2 f r ≤ v : Bool))).flatMap
            (rowOf [1, 1, 0, 1, 1, 0, 0, 0] 2) ∧
      (best_split [1, 1, 0, 1, 1, 0, 0, 0] [0, 1, 1, 0] 2).rtarget =
        ((List.range (List.length ([0, 1, 1, 0] : List ℚ))).filter
          (fun r => !(colVal [1, 1, 0, 1, 1, 0, 0, 0] 2 f r ≤ v : Bool))).map
            (fun r => List.getD [0, 1, 1, 0] r 0) ∧
      (best_split [1, 1, 0, 1, 1, 0, 0, 0] [0, 1, 1, 0] 2).ltarget ≠ [] ∧
      (best_split [1, 1, 0, 1, 1, 0, 0, 0] [0, 1, 1, 0] 2).rtarget ≠ [] ∧
      (best_split [1, 1, 0, 1, 1, 0, 0, 0] [0, 1, 1, 0] 2).lnrow =
        (best_split [1, 1, 0, 1, 1, 0, 0, 0] [0, 1, 1, 0] 2).ltarget.length ∧
      (best_split [1, 1, 0, 1, 1, 0, 0, 0] [0, 1, 1, 0] 2).rnrow =
        (best_split [1, 1, 0, 1, 1, 0, 0, 0] [0, 1, 1, 0] 2).rtarget.length ∧
      (best_split [1, 1, 0, 1, 1, 0, 0, 0] [0, 1, 1, 0] 2).lnrow +
        (best_split [1, 1, 0, 1, 1, 0, 0, 0] [0, 1, 1, 0] 2).rnrow =
        List.length ([0, 1, 1, 0] : List ℚ) :=
  best_split_partition_rows [1, 1, 0, 1, 1, 0, 0, 0] [0, 1, 1, 0] 2 intLabels_xor
    (by decide)

theorem split_exists_witness :
    validCands [1, 1, 0, 1, 1, 0, 0, 0] [0, 1, 1, 0] 2 ≠ [] ∧
      (best_split [1, 1, 0, 1, 1, 0, 0, 0] [0, 1, 1, 0] 2).ltarget ≠ [] ∧
      (best_split [1, 1, 0, 1, 1, 0, 0, 0] [0, 1, 1, 0] 2).rtarget ≠ [] :=
  split_exists_of_nonconstant_column [1, 1, 0, 1, 1, 0, 0, 0] [0, 1, 1, 0] 2
    intLabels_xor 0 (by norm_num) 0 1 (by norm_num) (by norm_num) (by decide)

theorem best_split_no_valid_returns_init_witness :
    best_split [1, 1] [0, 1] 1 = initSplit ∧
    (best_split [1, 1] [0, 1] 1).gain = 0 ∧
    (best_split [1, 1] [0, 1] 1).ldata = [] ∧ (best_split [1, 1] [0, 1] 1).ltarget = [] ∧
    (best_split [1, 1] [0, 1] 1).lnrow = 0 ∧
    (best_split [1, 1] [0, 1] 1).rdata = [] ∧ (best_split [1, 1] [0, 1] 1).rtarget = [] ∧
    (best_split [1, 1] [0, 1] 1).rnrow = 0 ∧
    (best_split [1, 1] [0, 1] 1).featidx = 0 ∧ (best_split [1, 1] [0, 1] 1).thresh = 0 :=
  best_split_no_valid_returns_init [1, 1] [0, 1] 1 (by decide)

theorem predict_rows_witness :
    (dtree_predict (Tree.leaf 3) [9, 9] 2 1).length = 1 ∧
    (∀ i, i < 1 → (dtree_predict (Tree.leaf 3) [9, 9] 2 1).getD i 0 =
      dtree_predict_single (Tree.leaf 3)
        ((List.range 2).map (fun j => List.getD [9, 9] (2 * i + j) 0))) ∧
    (∀ (v : ℚ) (row : List ℚ), dtree_predict_single (Tree.leaf v) row = v) ∧
    (∀ (f : ℕ) (th : ℚ) (g : ℝ) (l r : Tree) (row : List ℚ),
      dtree_predict_single (Tree.node f th g l r) row =
        if row.getD f 0 ≤ th then dtree_predict_single l row
        else dtree_predict_single r row) :=
  predict_rows (Tree.leaf 3) [9, 9] 2 1 (by norm_num)

theorem tree_depth_le_maxdepth_witness :
    ((dtree_grow_with_param [] [] 0 defaultparam).depth : ℤ) ≤ defaultparam.maxdepth ∧
    ((dtree_grow [] [] 0).depth : ℤ) ≤ 5 :=
  tree_depth_le_maxdepth [] [] 0 defaultparam (by norm_num [defaultparam])

end Libdtree

